import Mathlib

/-!
Verification of the HTTP path normalization core
(`source/common/http/path_utility.cc`).

Strings are modelled as `List Char`.  The request header map is modelled by
the single datum these operations touch, its path value.  The canonicalizer
that the repository delegates to (`url::CanonicalizePath` respectively
`LegacyPathCanonicalizer::canonicalizePath`) is not part of the sources and
is modelled from the specification, see `canonicalizePath` below.
-/

/-- The path segment of a path-with-query string: everything before the first
question mark (the whole string when no question mark occurs).  Mirrors
`original_path.substr(0, original_path.find('?'))`. -/
def pathSegmentOf (s : List Char) : List Char :=
  s.takeWhile (fun c => c ≠ '?')

/-- The query suffix of a path-with-query string: everything from the first
question mark (inclusive) to the end, empty when no question mark occurs.
Mirrors `absl::ClippedSubstr(original_path, original_path.find('?'))`. -/
def querySuffixOf (s : List Char) : List Char :=
  s.dropWhile (fun c => c ≠ '?')

/-- Whether the string contains two consecutive slashes.  Mirrors
`path.find("//") != npos`. -/
def hasDoubleSlash : List Char → Bool
  | [] => false
  | [_] => false
  | c :: d :: rest => (c = '/' && d = '/') || hasDoubleSlash (d :: rest)

/-- Mirrors `absl::StartsWith(path, "/")`. -/
def startsWithSlash (s : List Char) : Bool :=
  match s with
  | c :: _ => c = '/'
  | [] => false

/-- Mirrors `absl::EndsWith(path, "/")`. -/
def endsWithSlash (s : List Char) : Bool :=
  match s.getLast? with
  | some c => c = '/'
  | none => false

/-- Split a character list at every occurrence of `sep`, keeping empty
pieces.  Models `absl::StrSplit(path, sep)` before any filtering. -/
def splitOnChar (sep : Char) : List Char → List (List Char)
  | [] => [[]]
  | c :: rest =>
    match splitOnChar sep rest with
    | [] => [[]]
    | g :: gs => if c = sep then [] :: g :: gs else (c :: g) :: gs

/-- The request header map, reduced to the datum the path utilities read and
write: the value of the path header (asserted present by the callers). -/
structure RequestHeaderMap where
  path : List Char
deriving DecidableEq, Repr

/-- `PathTransformer::mergeSlashes`: splits off the query, returns the input
when the path segment has no two consecutive slashes, otherwise joins the
nonempty slash-separated pieces with single slashes, keeping a leading and a
trailing slash of the path segment and the verbatim query suffix. -/
def PathTransformer.mergeSlashes (original_path : List Char) : List Char :=
  let path := pathSegmentOf original_path
  let query := querySuffixOf original_path
  if hasDoubleSlash path then
    (if startsWithSlash path then ['/'] else []) ++
      List.intercalate ['/'] ((splitOnChar '/' path).filter (fun s => s ≠ [])) ++
      (if endsWithSlash path then ['/'] else []) ++ query
  else
    original_path

/-- `PathUtil::mergeSlashes`: same algorithm as
`PathTransformer::mergeSlashes`, but reading the path from the request
header map and writing the merged path back (the function returns early,
leaving the headers untouched, when the path segment has no two consecutive
slashes). -/
def PathUtil.mergeSlashes (headers : RequestHeaderMap) : RequestHeaderMap :=
  let original_path := headers.path
  let path := pathSegmentOf original_path
  let query := querySuffixOf original_path
  if hasDoubleSlash path then
    { headers with path :=
        (if startsWithSlash path then ['/'] else []) ++
          List.intercalate ['/'] ((splitOnChar '/' path).filter (fun s => s ≠ [])) ++
          (if endsWithSlash path then ['/'] else []) ++ query }
  else
    headers

/-- Mirrors `ret.find_first_of("?#")`: index of the first character of the
string that occurs in `targets`. -/
def findFirstOf (s : List Char) (targets : List Char) : Option Nat :=
  match s with
  | [] => none
  | c :: rest =>
    if c ∈ targets then some 0 else (findFirstOf rest targets).map (fun i => i + 1)

/-- `PathUtil::removeQueryAndFragment`: the input up to (not including) the
first question mark or hash character, the whole input when neither
occurs.  Pure: the argument is never modified. -/
def PathUtil.removeQueryAndFragment (path : List Char) : List Char :=
  match findFirstOf path ['?', '#'] with
  | none => path
  | some offset => path.take offset

/-- Run-collapsing as the specification words it: every run of two or more
consecutive slashes is replaced by a single slash.  This is the
specification-side definition used to compare the code-side merge against
the stated contract. -/
def collapseRuns : List Char → List Char
  | [] => []
  | [c] => [c]
  | c :: d :: rest =>
    if c = '/' && d = '/' then collapseRuns (d :: rest)
    else c :: collapseRuns (d :: rest)

/-- The merge behavior exactly as the specification states the contract:
collapse every slash run of the path segment, keep the query suffix
verbatim. -/
def specMergeSlashes (original_path : List Char) : List Char :=
  collapseRuns (pathSegmentOf original_path) ++ querySuffixOf original_path

/-- The merged path segment as the merge functions assemble it (leading
slash, joined nonempty pieces, trailing slash); proof-side abbreviation of
the common subexpression of the two merge functions. -/
def mergedOf (path : List Char) : List Char :=
  (if startsWithSlash path then ['/'] else []) ++
    List.intercalate ['/'] ((splitOnChar '/' path).filter (fun s => s ≠ [])) ++
    (if endsWithSlash path then ['/'] else [])

/-- An unreserved character in the sense of RFC 3986: ALPHA, DIGIT, or one
of minus, dot, underscore, tilde. -/
def isUnreservedChar (c : Char) : Bool :=
  (65 ≤ c.toNat && c.toNat ≤ 90) || (97 ≤ c.toNat && c.toNat ≤ 122) ||
    (48 ≤ c.toNat && c.toNat ≤ 57) ||
    c = '-' || c = '.' || c = '_' || c = '~'

/-- Value of a hexadecimal digit, `none` for every other character. -/
def hexDigitVal (c : Char) : Option Nat :=
  if 48 ≤ c.toNat && c.toNat ≤ 57 then some (c.toNat - 48)
  else if 65 ≤ c.toNat && c.toNat ≤ 70 then some (c.toNat - 55)
  else if 97 ≤ c.toNat && c.toNat ≤ 102 then some (c.toNat - 87)
  else none

/-- Modelled from the spec: the percent-decoding pass of the canonicalizer
(spec section 4.2, steps 1 and 4).  Percent triplets denoting unreserved
octets are decoded; triplets denoting every other octet are kept encoded
verbatim; a malformed triplet (truncated, or with a non-hex digit) and a
disallowed control byte fail the whole operation. -/
def percentDecodeUnreserved : List Char → Option (List Char)
  | [] => some []
  | c :: rest =>
    if c = '%' then
      match rest with
      | a :: b :: rest2 =>
        match hexDigitVal a, hexDigitVal b with
        | some ha, some hb =>
          match percentDecodeUnreserved rest2 with
          | none => none
          | some tail =>
            if isUnreservedChar (Char.ofNat (16 * ha + hb)) then
              some (Char.ofNat (16 * ha + hb) :: tail)
            else
              some ('%' :: a :: b :: tail)
        | _, _ => none
      | _ => none
    else if c.toNat < 32 then none
    else
      match percentDecodeUnreserved rest with
      | none => none
      | some tail => some (c :: tail)

/-- Modelled from the spec: one step of the dot-segment stack of the
canonicalizer (spec section 4.2, step 2).  A `.` segment is dropped, a `..`
segment pops the last output segment if one exists (an excess `..` at the
root is silently dropped, the fail-open choice of the stated edge-case
policy), any other segment is appended. -/
def stepSegment (stack : List (List Char)) (seg : List Char) : List (List Char) :=
  if seg = ['.'] then stack
  else if seg = ['.', '.'] then stack.dropLast
  else stack ++ [seg]

/-- Modelled from the spec: dot-segment resolution over a segment list. -/
def resolveSegs (segments : List (List Char)) : List (List Char) :=
  segments.foldl stepSegment []

/-- Reassemble a path from its resolved segment stack, restoring the leading
and trailing slash of the input (spec section 4.2, step 3). -/
def buildPath (lead trail : Bool) (stack : List (List Char)) : List Char :=
  (if lead then ['/'] else []) ++ List.intercalate ['/'] stack ++
    (if trail && !stack.isEmpty then ['/'] else [])

/-- Modelled from the spec: the dot-segment resolution pass of the
canonicalizer.  The decoded path is split at slashes (the empty pieces
created by a leading or a trailing slash are accounted to the corresponding
flag, interior empty pieces are kept as empty segments so that consecutive
slashes survive resolution), the segments are resolved against a stack, and
the path is reassembled preserving the leading and trailing slash. -/
def coreSegments (decoded : List Char) : List (List Char) :=
  let raw := splitOnChar '/' decoded
  let core0 := if startsWithSlash decoded then raw.drop 1 else raw
  if endsWithSlash decoded then core0.dropLast else core0

/-- Modelled from the spec: dot-segment resolution of a decoded path, built
from `coreSegments`, `resolveSegs` and `buildPath` above. -/
def resolveDotSegments (decoded : List Char) : List Char :=
  buildPath (startsWithSlash decoded) (endsWithSlash decoded)
    (resolveSegs (coreSegments decoded))

/-- Modelled from the spec: the repository function `canonicalizePath`
delegates (behind a runtime feature flag) to `url::CanonicalizePath` of the
forked chromium library or to `LegacyPathCanonicalizer::canonicalizePath`,
neither of which is part of the sources.  Following spec section 4.2, the
path segment is percent-decoded (unreserved octets only, malformed
percent triplets and control bytes fail the operation, yielding `none`) and
its dot segments are resolved; the leading and trailing slash of the input
are preserved, and an excess `..` at the root is silently dropped. -/
def canonicalizePath (original_path : List Char) : Option (List Char) :=
  (percentDecodeUnreserved original_path).map resolveDotSegments

/-- `PathUtil::canonicalPath`: reads the path header, canonicalizes its
path segment.  On failure returns `false` leaving the headers untouched;
on success rewrites the path header to the canonical path segment followed
by the verbatim query suffix and returns `true`. -/
def PathUtil.canonicalPath (headers : RequestHeaderMap) : Bool × RequestHeaderMap :=
  let original_path := headers.path
  match canonicalizePath (pathSegmentOf original_path) with
  | none => (false, headers)
  | some normalized_path =>
    (true, { headers with path := normalized_path ++ querySuffixOf original_path })

/-- `PathTransformer::rfcNormalize`: canonicalizes the path segment and
reattaches the verbatim query suffix.  The C++ function returns a plain
string and unwraps the canonicalization result with `absl::optional::value()`
without checking it: when canonicalization fails the call does not return
normally (it throws `absl::bad_optional_access` or aborts).  That abnormal
termination is modelled by `none`; `none` is NOT a failure value the C++
caller could observe. -/
def PathTransformer.rfcNormalize (original_path : List Char) : Option (List Char) :=
  match canonicalizePath (pathSegmentOf original_path) with
  | none => none
  | some normalized_path => some (normalized_path ++ querySuffixOf original_path)

/-- One configured operation of a `PathTransformation` proto: exactly one of
the two recognized variants, or a variant the constructor does not
recognize (an unset or unknown operation case). -/
inductive Operation where
  | normalizePathRfc3986 : Operation
  | mergeSlashes : Operation
  | unrecognized : Operation
deriving DecidableEq, Repr

/-- `PathTransformer::mergeSlashes` wrapped into the common transformation
shape (it always returns normally). -/
def PathTransformer.mergeSlashesT (s : List Char) : Option (List Char) :=
  some (PathTransformer.mergeSlashes s)

/-- The `PathTransformer` constructor: walks the configured operations in
order and appends the transformation of each recognized variant to the
internal list, skipping unrecognized variants. -/
def PathTransformer.transformations (ops : List Operation) : List (List Char → Option (List Char)) :=
  match ops with
  | [] => []
  | Operation.normalizePathRfc3986 :: rest =>
    PathTransformer.rfcNormalize :: PathTransformer.transformations rest
  | Operation.mergeSlashes :: rest =>
    PathTransformer.mergeSlashesT :: PathTransformer.transformations rest
  | Operation.unrecognized :: rest => PathTransformer.transformations rest

/-- `PathTransformer::transform`: applies the stored transformations in
order, threading the output of one as the input of the next.  A `none`
models the abnormal termination of the rfc-normalize step, see
`PathTransformer.rfcNormalize`. -/
def PathTransformer.transform (ops : List Operation) (original : List Char) : Option (List Char) :=
  (PathTransformer.transformations ops).foldlM (fun s t => t s) original

/-- The transformation associated to a single configured operation, `none`
for the unrecognized variant (spec section 4.4: such variants are ignored,
not an error). -/
def recognizedTransformation : Operation → Option (List Char → Option (List Char))
  | Operation.normalizePathRfc3986 => some PathTransformer.rfcNormalize
  | Operation.mergeSlashes => some PathTransformer.mergeSlashesT
  | Operation.unrecognized => none

/-- Shape invariant of the strings `percentDecodeUnreserved` produces: a
well-decoded string is a sequence of plain characters (not a percent sign,
not a control byte) and of kept percent triplets whose octet is not
unreserved. -/
inductive WellDecoded : List Char → Prop where
  | nil : WellDecoded []
  | lit (c : Char) (rest : List Char) : c ≠ '%' → 32 ≤ c.toNat →
      WellDecoded rest → WellDecoded (c :: rest)
  | triplet (a b : Char) (rest : List Char) (ha hb : Nat) :
      hexDigitVal a = some ha → hexDigitVal b = some hb →
      isUnreservedChar (Char.ofNat (16 * ha + hb)) = false →
      WellDecoded rest → WellDecoded ('%' :: a :: b :: rest)

example : canonicalizePath ['/', 'a', '/', '.', '/', 'b', '/', '.', '.', '/', 'c'] =
    some ['/', 'a', '/', 'c'] := by decide

example : canonicalizePath ['/', '.', '.', '/', 'a'] = some ['/', 'a'] := by decide

example : canonicalizePath ['%'] = none := by decide

example : canonicalizePath ['/', 'a', '%', '4', '1'] = some ['/', 'a', 'A'] := by decide

example : canonicalizePath ['/', 'a', '%', '2', 'f', 'b'] =
    some ['/', 'a', '%', '2', 'f', 'b'] := by decide

example : canonicalizePath ['/', '/', 'a'] = some ['/', '/', 'a'] := by decide

example : canonicalizePath ['/', '%', '2', 'e', '%', '2', 'e', '/', 'a'] =
    some ['/', 'a'] := by decide

example : PathTransformer.transform [Operation.mergeSlashes, Operation.normalizePathRfc3986]
    ['/', '/', 'a', '/', '.', '.', '/', 'b', '?', 'x', '=', '1'] =
    some ['/', 'b', '?', 'x', '=', '1'] := by decide

example : PathUtil.canonicalPath ⟨['/', 'a', '?', 'q']⟩ =
    (true, ⟨['/', 'a', '?', 'q']⟩) := by decide

example : PathTransformer.mergeSlashes ['/', '/', 'a', '/', '/', 'b', '/', '/'] =
    ['/', 'a', '/', 'b', '/'] := by decide

example : PathTransformer.mergeSlashes ['/', '/'] = ['/', '/'] := by decide

example : specMergeSlashes ['/', '/'] = ['/'] := by decide

example : PathTransformer.mergeSlashes ['/', 'a', '/', '/', 'b', '?', 'x', '/', '/'] =
    ['/', 'a', '/', 'b', '?', 'x', '/', '/'] := by decide

example : PathUtil.removeQueryAndFragment ['/', 'a', '?', 'x', '#', 'f'] = ['/', 'a'] := by
  decide

lemma pathSegment_append_querySuffix (p : List Char) :
    pathSegmentOf p ++ querySuffixOf p = p := by
  unfold pathSegmentOf querySuffixOf
  exact List.takeWhile_append_dropWhile _ _

lemma not_mem_pathSegment (p : List Char) : '?' ∉ pathSegmentOf p := by
  intro h
  have := List.mem_takeWhile_imp h
  simp at this

lemma querySuffix_shape (p : List Char) :
    querySuffixOf p = [] ∨ ∃ t, querySuffixOf p = '?' :: t := by
  induction p with
  | nil => exact Or.inl rfl
  | cons c rest ih =>
    by_cases hc : c = '?'
    · subst hc
      exact Or.inr ⟨rest, by simp [querySuffixOf]⟩
    · simpa [querySuffixOf, hc] using ih

lemma dropWhile_q_append (a b : List Char) (ha : ∀ c ∈ a, c ≠ '?')
    (hb : b = [] ∨ ∃ t, b = '?' :: t) :
    (a ++ b).dropWhile (fun c => c ≠ '?') = b := by
  induction a with
  | nil =>
    rcases hb with rfl | ⟨t, rfl⟩
    · rfl
    · simp [List.dropWhile]
  | cons c a ih =>
    have hc : c ≠ '?' := ha c (by simp)
    simpa [List.dropWhile, hc] using ih (fun x hx => ha x (by simp [hx]))

lemma querySuffix_append (a b : List Char) (ha : ∀ c ∈ a, c ≠ '?')
    (hb : b = [] ∨ ∃ t, b = '?' :: t) : querySuffixOf (a ++ b) = b :=
  dropWhile_q_append a b ha hb

lemma splitOnChar_ne_nil (sep : Char) (s : List Char) : splitOnChar sep s ≠ [] := by
  cases s with
  | nil => simp [splitOnChar]
  | cons c rest =>
    simp only [splitOnChar]
    cases splitOnChar sep rest with
    | nil => simp
    | cons g gs =>
      by_cases hc : c = sep <;> simp [hc]

lemma splitOnChar_cons_sep (sep : Char) (rest : List Char) :
    splitOnChar sep (sep :: rest) = [] :: splitOnChar sep rest := by
  have h := splitOnChar_ne_nil sep rest
  simp only [splitOnChar]
  cases hr : splitOnChar sep rest with
  | nil => exact absurd hr h
  | cons g gs => simp

lemma splitOnChar_cons_ne (sep c : Char) (rest : List Char) (hc : c ≠ sep) :
    ∃ g gs, splitOnChar sep rest = g :: gs ∧
      splitOnChar sep (c :: rest) = (c :: g) :: gs := by
  cases hr : splitOnChar sep rest with
  | nil => exact absurd hr (splitOnChar_ne_nil sep rest)
  | cons g gs =>
    refine ⟨g, gs, rfl, ?_⟩
    simp [splitOnChar, hr, hc]

lemma mem_splitOnChar_no_sep (sep : Char) :
    ∀ (s : List Char), ∀ g ∈ splitOnChar sep s, sep ∉ g := by
  intro s
  induction s with
  | nil =>
    intro g hg
    simp [splitOnChar] at hg
    simp [hg]
  | cons c rest ih =>
    intro g hg
    by_cases hc : c = sep
    · subst hc
      rw [splitOnChar_cons_sep] at hg
      rcases List.mem_cons.mp hg with hg | hg
      · simp [hg]
      · exact ih g hg
    · obtain ⟨g0, gs0, hr, hsplit⟩ := splitOnChar_cons_ne sep c rest hc
      rw [hsplit] at hg
      rcases List.mem_cons.mp hg with hg | hg
      · subst hg
        intro hmem
        rcases List.mem_cons.mp hmem with h | h
        · exact hc h.symm
        · exact ih g0 (by rw [hr]; exact List.mem_cons_self g0 gs0) h
      · exact ih g (by rw [hr]; exact List.mem_cons_of_mem g0 hg)

lemma mem_of_mem_splitOnChar (sep : Char) :
    ∀ (s : List Char) (g : List Char), g ∈ splitOnChar sep s → ∀ x ∈ g, x ∈ s := by
  intro s
  induction s with
  | nil =>
    intro g hg x hx
    simp [splitOnChar] at hg
    subst hg
    simp at hx
  | cons c rest ih =>
    intro g hg x hx
    by_cases hc : c = sep
    · subst hc
      rw [splitOnChar_cons_sep] at hg
      rcases List.mem_cons.mp hg with hg | hg
      · subst hg; simp at hx
      · exact List.mem_cons_of_mem _ (ih g hg x hx)
    · obtain ⟨g0, gs0, hr, hsplit⟩ := splitOnChar_cons_ne sep c rest hc
      rw [hsplit] at hg
      rcases List.mem_cons.mp hg with hg | hg
      · subst hg
        rcases List.mem_cons.mp hx with h | h
        · simp [h]
        · exact List.mem_cons_of_mem _
            (ih g0 (by rw [hr]; exact List.mem_cons_self g0 gs0) x h)
      · exact List.mem_cons_of_mem _
          (ih g (by rw [hr]; exact List.mem_cons_of_mem g0 hg) x hx)

lemma splitOnChar_no_sep (sep : Char) (s : List Char) (h : sep ∉ s) :
    splitOnChar sep s = [s] := by
  induction s with
  | nil => rfl
  | cons c rest ih =>
    have hc : c ≠ sep := fun hc => h (by simp [hc])
    obtain ⟨g, gs, hr, hsplit⟩ := splitOnChar_cons_ne sep c rest hc
    have := ih (fun hm => h (List.mem_cons_of_mem c hm))
    rw [this] at hr
    cases hr
    simpa using hsplit

lemma splitOnChar_append_sep (sep : Char) (g rest : List Char) (hg : sep ∉ g) :
    splitOnChar sep (g ++ sep :: rest) = g :: splitOnChar sep rest := by
  induction g with
  | nil => simpa using splitOnChar_cons_sep sep rest
  | cons c g ih =>
    have hc : c ≠ sep := fun hc => hg (by simp [hc])
    have hrec := ih (fun hm => hg (List.mem_cons_of_mem c hm))
    obtain ⟨g0, gs0, hr, hsplit⟩ :=
      splitOnChar_cons_ne sep c (g ++ sep :: rest) hc
    rw [hrec] at hr
    cases hr
    simpa using hsplit

lemma intercalate_nil (sep : List Char) :
    List.intercalate sep ([] : List (List Char)) = [] := rfl

lemma intercalate_single (sep g : List Char) : List.intercalate sep [g] = g := by
  simp [List.intercalate, List.intersperse]

lemma intercalate_cons₂ (sep a b : List Char) (t : List (List Char)) :
    List.intercalate sep (a :: b :: t) = a ++ sep ++ List.intercalate sep (b :: t) := by
  simp [List.intercalate, List.intersperse]

lemma splitOnChar_intercalate (sep : Char) :
    ∀ (gs : List (List Char)), gs ≠ [] → (∀ g ∈ gs, sep ∉ g) →
      splitOnChar sep (List.intercalate [sep] gs) = gs := by
  intro gs
  induction gs with
  | nil => intro h; exact absurd rfl h
  | cons g t ih =>
    intro _ hfree
    cases t with
    | nil =>
      rw [intercalate_single]
      exact splitOnChar_no_sep sep g (hfree g (by simp))
    | cons g2 t2 =>
      rw [intercalate_cons₂]
      have hg : sep ∉ g := hfree g (by simp)
      have : g ++ [sep] ++ List.intercalate [sep] (g2 :: t2) =
          g ++ sep :: List.intercalate [sep] (g2 :: t2) := by simp
      rw [this, splitOnChar_append_sep sep g _ hg,
        ih (by simp) (fun x hx => hfree x (List.mem_cons_of_mem g hx))]

lemma intercalate_concat_empty (sep : Char) :
    ∀ (gs : List (List Char)), gs ≠ [] →
      List.intercalate [sep] (gs ++ [[]]) = List.intercalate [sep] gs ++ [sep] := by
  intro gs
  induction gs with
  | nil => intro h; exact absurd rfl h
  | cons g t ih =>
    intro _
    cases t with
    | nil =>
      rw [intercalate_single]
      show List.intercalate [sep] [g, []] = g ++ [sep]
      rw [intercalate_cons₂, intercalate_single]
      simp
    | cons g2 t2 =>
      rw [show (g :: g2 :: t2) ++ [[]] = g :: g2 :: (t2 ++ [[]]) by simp,
        intercalate_cons₂,
        show g2 :: (t2 ++ [[]]) = (g2 :: t2) ++ [[]] by simp,
        ih (by simp), intercalate_cons₂]
      simp

lemma intercalate_append_single (sep : Char) :
    ∀ (st : List (List Char)) (s : List Char), st ≠ [] →
      List.intercalate [sep] (st ++ [s]) =
        List.intercalate [sep] st ++ [sep] ++ s := by
  intro st
  induction st with
  | nil => intro s h; exact absurd rfl h
  | cons g t ih =>
    intro s _
    cases t with
    | nil =>
      rw [intercalate_single]
      show List.intercalate [sep] [g, s] = g ++ [sep] ++ s
      rw [intercalate_cons₂, intercalate_single]
    | cons g2 t2 =>
      rw [show (g :: g2 :: t2) ++ [s] = g :: g2 :: (t2 ++ [s]) by simp,
        intercalate_cons₂,
        show g2 :: (t2 ++ [s]) = (g2 :: t2) ++ [s] by simp,
        ih s (by simp), intercalate_cons₂]
      simp

lemma intercalate_cons_head (sep c : Char) (g : List Char) (t : List (List Char)) :
    ∃ r, List.intercalate [sep] ((c :: g) :: t) = c :: r := by
  cases t with
  | nil => exact ⟨g, intercalate_single _ _⟩
  | cons g2 t2 =>
    refine ⟨g ++ [sep] ++ List.intercalate [sep] (g2 :: t2), ?_⟩
    rw [intercalate_cons₂]
    simp

lemma mem_intercalate (sep : Char) :
    ∀ (gs : List (List Char)) (x : Char), x ∈ List.intercalate [sep] gs →
      x = sep ∨ ∃ g ∈ gs, x ∈ g := by
  intro gs
  induction gs with
  | nil => intro x hx; simp [intercalate_nil] at hx
  | cons g t ih =>
    intro x hx
    cases t with
    | nil =>
      rw [intercalate_single] at hx
      exact Or.inr ⟨g, by simp, hx⟩
    | cons g2 t2 =>
      rw [intercalate_cons₂] at hx
      simp only [List.append_assoc, List.mem_append] at hx
      rcases hx with hx | hx | hx
      · exact Or.inr ⟨g, by simp, hx⟩
      · simp at hx
        exact Or.inl hx
      · rcases ih x hx with h | ⟨g', hg', hxg⟩
        · exact Or.inl h
        · exact Or.inr ⟨g', List.mem_cons_of_mem g hg', hxg⟩

lemma cons_of_head? {l : List Char} {a : Char} (h : l.head? = some a) :
    ∃ u, l = a :: u := by
  cases l with
  | nil => simp at h
  | cons c u =>
    simp at h
    exact ⟨u, by rw [h]⟩

lemma collapseRuns_cons_cons (c d : Char) (rest : List Char) :
    collapseRuns (c :: d :: rest) =
      if c = '/' && d = '/' then collapseRuns (d :: rest)
      else c :: collapseRuns (d :: rest) := rfl

lemma hasDoubleSlash_cons_cons (c d : Char) (rest : List Char) :
    hasDoubleSlash (c :: d :: rest) =
      ((c = '/' && d = '/') || hasDoubleSlash (d :: rest)) := rfl

lemma collapseRuns_head : ∀ s : List Char, (collapseRuns s).head? = s.head? := by
  intro s
  induction s with
  | nil => rfl
  | cons c rest ih =>
    cases rest with
    | nil => rfl
    | cons d rest2 =>
      rw [collapseRuns_cons_cons]
      by_cases hc : c = '/'
      · by_cases hd : d = '/'
        · subst hc; subst hd
          simpa using ih
        · simp [hc, hd]
      · simp [hc]

lemma collapseRuns_no_double : ∀ s : List Char, hasDoubleSlash (collapseRuns s) = false := by
  intro s
  induction s with
  | nil => rfl
  | cons c rest ih =>
    cases rest with
    | nil => rfl
    | cons d rest2 =>
      rw [collapseRuns_cons_cons]
      by_cases h : c = '/' ∧ d = '/'
      · obtain ⟨hc, hd⟩ := h
        subst hc; subst hd
        simpa using ih
      · have hcond : (decide (c = '/') && decide (d = '/')) = false := by
          rcases not_and_or.mp h with h1 | h1 <;> simp [h1]
        rw [hcond]
        simp only [Bool.false_eq_true, if_false]
        have hhead : (collapseRuns (d :: rest2)).head? = some d := by
          rw [collapseRuns_head]; rfl
        obtain ⟨u, hu⟩ := cons_of_head? hhead
        rw [hu] at ih ⊢
        rw [hasDoubleSlash_cons_cons, hcond, ih]
        rfl

lemma collapseRuns_id (s : List Char) (h : hasDoubleSlash s = false) :
    collapseRuns s = s := by
  induction s with
  | nil => rfl
  | cons c rest ih =>
    cases rest with
    | nil => rfl
    | cons d rest2 =>
      rw [hasDoubleSlash_cons_cons] at h
      have h1 : (decide (c = '/') && decide (d = '/')) = false := by
        cases hb : (decide (c = '/') && decide (d = '/')) with
        | false => rfl
        | true => rw [hb] at h; simp at h
      have h2 : hasDoubleSlash (d :: rest2) = false := by
        cases hb : hasDoubleSlash (d :: rest2) with
        | false => rfl
        | true => rw [hb] at h; simp at h
      rw [collapseRuns_cons_cons, h1]
      simp only [Bool.false_eq_true, if_false]
      rw [ih h2]

lemma mem_collapseRuns : ∀ (s : List Char) (x : Char), x ∈ collapseRuns s → x ∈ s := by
  intro s
  induction s with
  | nil => intro x hx; simpa [collapseRuns] using hx
  | cons c rest ih =>
    cases rest with
    | nil => intro x hx; simpa [collapseRuns] using hx
    | cons d rest2 =>
      intro x hx
      rw [collapseRuns_cons_cons] at hx
      by_cases h : c = '/' ∧ d = '/'
      · obtain ⟨hc, hd⟩ := h
        subst hc; subst hd
        simp only [decide_True, Bool.and_self, if_true] at hx
        exact List.mem_cons_of_mem _ (ih x hx)
      · have hcond : (decide (c = '/') && decide (d = '/')) = false := by
          rcases not_and_or.mp h with h1 | h1 <;> simp [h1]
        rw [hcond] at hx
        simp only [Bool.false_eq_true, if_false] at hx
        rcases List.mem_cons.mp hx with rfl | hx
        · simp
        · exact List.mem_cons_of_mem _ (ih x hx)

lemma segs_cons_slash (rest : List Char) :
    (splitOnChar '/' ('/' :: rest)).filter (fun g => g ≠ []) =
      (splitOnChar '/' rest).filter (fun g => g ≠ []) := by
  rw [splitOnChar_cons_sep]
  simp

lemma segs_cons_ne (c : Char) (rest : List Char) (hc : c ≠ '/') :
    ∃ g0 gs0, splitOnChar '/' rest = g0 :: gs0 ∧
      (splitOnChar '/' (c :: rest)).filter (fun g => g ≠ []) =
        (c :: g0) :: gs0.filter (fun g => g ≠ []) := by
  obtain ⟨g0, gs0, hr, hsplit⟩ := splitOnChar_cons_ne '/' c rest hc
  exact ⟨g0, gs0, hr, by rw [hsplit]; simp⟩

lemma segs_nil_iff : ∀ s : List Char,
    ((splitOnChar '/' s).filter (fun g => g ≠ []) = []) ↔ (∀ x ∈ s, x = '/') := by
  intro s
  induction s with
  | nil => simp [splitOnChar]
  | cons c rest ih =>
    by_cases hc : c = '/'
    · subst hc
      rw [segs_cons_slash]
      constructor
      · intro h x hx
        rcases List.mem_cons.mp hx with rfl | hx
        · rfl
        · exact (ih.mp h) x hx
      · intro h
        exact ih.mpr (fun x hx => h x (List.mem_cons_of_mem _ hx))
    · obtain ⟨g0, gs0, _, hseg⟩ := segs_cons_ne c rest hc
      rw [hseg]
      constructor
      · intro h; exact absurd h (by simp)
      · intro h; exact absurd (h c (by simp)) hc

lemma collapseRuns_all_slash : ∀ s : List Char, s ≠ [] → (∀ x ∈ s, x = '/') →
    collapseRuns s = ['/'] := by
  intro s
  induction s with
  | nil => intro h; exact absurd rfl h
  | cons c rest ih =>
    intro _ hall
    have hc : c = '/' := hall c (by simp)
    subst hc
    cases rest with
    | nil => rfl
    | cons d rest2 =>
      have hd : d = '/' := hall d (by simp)
      subst hd
      rw [collapseRuns_cons_cons]
      simp only [decide_True, Bool.and_self, if_true]
      exact ih (by simp) (fun x hx => hall x (List.mem_cons_of_mem _ hx))

lemma getLast?_all_slash : ∀ s : List Char, s ≠ [] → (∀ x ∈ s, x = '/') →
    s.getLast? = some '/' := by
  intro s
  induction s with
  | nil => intro h; exact absurd rfl h
  | cons c rest ih =>
    intro _ hall
    cases rest with
    | nil => simpa using hall c (by simp)
    | cons d rest2 =>
      rw [List.getLast?_cons_cons]
      exact ih (by simp) (fun x hx => hall x (List.mem_cons_of_mem _ hx))

lemma startsWithSlash_cons (c : Char) (x : List Char) :
    startsWithSlash (c :: x) = decide (c = '/') := rfl

lemma endsWithSlash_cons_cons (c d : Char) (rest : List Char) :
    endsWithSlash (c :: d :: rest) = endsWithSlash (d :: rest) := by
  simp [endsWithSlash, List.getLast?_cons_cons]

lemma endsWithSlash_single (c : Char) : endsWithSlash [c] = decide (c = '/') := by
  simp [endsWithSlash]

lemma intercalate_cons_head_cons (sep c : Char) (g : List Char) (t : List (List Char)) :
    List.intercalate [sep] ((c :: g) :: t) = c :: List.intercalate [sep] (g :: t) := by
  cases t with
  | nil => rw [intercalate_single, intercalate_single]
  | cons g2 t2 =>
    rw [intercalate_cons₂, intercalate_cons₂]
    simp

lemma endsWithSlash_of_getLast (s : List Char) (h : s.getLast? = some '/') :
    endsWithSlash s = true := by
  simp [endsWithSlash, h]

lemma mergedOf_eq_collapseRuns : ∀ path : List Char,
    (splitOnChar '/' path).filter (fun g => g ≠ []) ≠ [] →
    mergedOf path = collapseRuns path := by
  intro path
  induction path with
  | nil =>
    intro h
    exact absurd ((segs_nil_iff []).mpr (by intro x hx; simp at hx)) h
  | cons c rest ih =>
    intro hne
    cases rest with
    | nil =>
      have hc : c ≠ '/' := by
        intro hceq; subst hceq
        exact hne ((segs_nil_iff ['/']).mpr (by intro x hx; simpa using hx))
      have hsp : splitOnChar '/' [c] = [[c]] :=
        splitOnChar_no_sep '/' [c] (by intro hm; simp at hm; exact hc hm.symm)
      unfold mergedOf
      rw [hsp, startsWithSlash_cons, endsWithSlash_single]
      simp [hc, intercalate_single, collapseRuns]
    | cons d rest2 =>
      by_cases hc : c = '/'
      · subst hc
        by_cases hd : d = '/'
        · subst hd
          have hseg := segs_cons_slash ('/' :: rest2)
          have hne2 : (splitOnChar '/' ('/' :: rest2)).filter (fun g => g ≠ []) ≠ [] := by
            rw [← hseg]; exact hne
          have hmer : mergedOf ('/' :: '/' :: rest2) = mergedOf ('/' :: rest2) := by
            unfold mergedOf
            rw [hseg, startsWithSlash_cons, startsWithSlash_cons, endsWithSlash_cons_cons]
          rw [hmer, ih hne2, collapseRuns_cons_cons]
          simp only [decide_True, Bool.and_self, if_true]
        · have hseg := segs_cons_slash (d :: rest2)
          have hne2 : (splitOnChar '/' (d :: rest2)).filter (fun g => g ≠ []) ≠ [] := by
            rw [← hseg]; exact hne
          have ihe := ih hne2
          unfold mergedOf at ihe ⊢
          rw [startsWithSlash_cons] at ihe
          rw [hseg, startsWithSlash_cons, endsWithSlash_cons_cons,
            collapseRuns_cons_cons]
          have hcond : (decide ('/' = '/') && decide (d = '/')) = false := by simp [hd]
          rw [hcond]
          simp only [Bool.false_eq_true, if_false]
          simp only [hd, decide_False, Bool.false_eq_true, if_false,
            List.nil_append] at ihe
          simp only [decide_True, if_true, List.append_assoc, List.singleton_append]
          rw [List.cons_append, ihe]
      · obtain ⟨g0, gs0, hr, hseg⟩ := segs_cons_ne c (d :: rest2) hc
        by_cases hd : d = '/'
        · subst hd
          rw [splitOnChar_cons_sep, List.cons.injEq] at hr
          obtain ⟨hg0, hgs0⟩ := hr
          subst hg0; subst hgs0
          by_cases hrest : (splitOnChar '/' rest2).filter (fun g => g ≠ []) = []
          · have hall2 : ∀ x ∈ rest2, x = '/' := (segs_nil_iff rest2).mp hrest
            have hallslash : ∀ x ∈ '/' :: rest2, x = '/' := by
              intro x hx
              rcases List.mem_cons.mp hx with rfl | hx
              · rfl
              · exact hall2 x hx
            have hglast : ('/' :: rest2).getLast? = some '/' :=
              getLast?_all_slash ('/' :: rest2) (by simp) hallslash
            unfold mergedOf
            rw [hseg, hrest, startsWithSlash_cons, endsWithSlash_cons_cons,
              endsWithSlash_of_getLast ('/' :: rest2) hglast]
            rw [collapseRuns_cons_cons]
            have hcond : (decide (c = '/') && decide ('/' = '/')) = false := by simp [hc]
            rw [hcond]
            simp only [Bool.false_eq_true, if_false]
            rw [collapseRuns_all_slash ('/' :: rest2) (by simp) hallslash]
            simp [hc, intercalate_single]
          · have hseg2 := segs_cons_slash rest2
            have hne2 : (splitOnChar '/' ('/' :: rest2)).filter (fun g => g ≠ []) ≠ [] := by
              rw [hseg2]; exact hrest
            have ihe := ih hne2
            unfold mergedOf at ihe ⊢
            rw [startsWithSlash_cons] at ihe
            rw [hseg2] at ihe
            rw [hseg, startsWithSlash_cons, endsWithSlash_cons_cons]
            obtain ⟨s1, t1, hst⟩ : ∃ s1 t1,
                (splitOnChar '/' rest2).filter (fun g => g ≠ []) = s1 :: t1 := by
              cases hx : (splitOnChar '/' rest2).filter (fun g => g ≠ []) with
              | nil => exact absurd hx hrest
              | cons a u => exact ⟨a, u, rfl⟩
            rw [hst] at ihe ⊢
            rw [intercalate_cons₂]
            rw [collapseRuns_cons_cons]
            have hcond : (decide (c = '/') && decide ('/' = '/')) = false := by simp [hc]
            rw [hcond]
            simp only [Bool.false_eq_true, if_false]
            simp only [decide_True, if_true, List.singleton_append] at ihe
            simp only [hc, decide_False, Bool.false_eq_true, if_false, List.nil_append,
              List.append_assoc, List.singleton_append]
            rw [← ihe]
            simp
        · obtain ⟨g1, gs1, hr1, hsplit1⟩ := splitOnChar_cons_ne '/' d rest2 hd
          rw [hsplit1, List.cons.injEq] at hr
          obtain ⟨hg0, hgs0⟩ := hr
          subst hg0; subst hgs0
          obtain ⟨g1x, gs1x, hr1x, hseg1⟩ := segs_cons_ne d rest2 hd
          rw [hr1] at hr1x
          rw [List.cons.injEq] at hr1x
          obtain ⟨hg1x, hgs1x⟩ := hr1x
          subst hg1x; subst hgs1x
          have hne2 : (splitOnChar '/' (d :: rest2)).filter (fun g => g ≠ []) ≠ [] := by
            rw [hseg1]; simp
          have ihe := ih hne2
          unfold mergedOf at ihe ⊢
          rw [startsWithSlash_cons] at ihe
          rw [hseg1] at ihe
          rw [hseg, startsWithSlash_cons, endsWithSlash_cons_cons,
            intercalate_cons_head_cons]
          rw [collapseRuns_cons_cons]
          have hcond : (decide (c = '/') && decide (d = '/')) = false := by simp [hc]
          rw [hcond]
          simp only [Bool.false_eq_true, if_false]
          simp only [hd, decide_False, Bool.false_eq_true, if_false,
            List.nil_append] at ihe
          simp only [hc, decide_False, Bool.false_eq_true, if_false, List.nil_append,
            List.append_assoc]
          rw [← ihe]
          simp

lemma hasDoubleSlash_shape (s : List Char) (h : hasDoubleSlash s = true) :
    ∃ c d rest, s = c :: d :: rest := by
  cases s with
  | nil => simp [hasDoubleSlash] at h
  | cons c r =>
    cases r with
    | nil => simp [hasDoubleSlash] at h
    | cons d r2 => exact ⟨c, d, r2, rfl⟩

lemma takeWhile_q_append (a b : List Char) (ha : ∀ c ∈ a, c ≠ '?')
    (hb : b = [] ∨ ∃ t, b = '?' :: t) :
    (a ++ b).takeWhile (fun c => c ≠ '?') = a := by
  induction a with
  | nil =>
    rcases hb with rfl | ⟨t, rfl⟩
    · rfl
    · simp [List.takeWhile]
  | cons c a ih =>
    have hc : c ≠ '?' := ha c (by simp)
    simpa [List.takeWhile_cons, hc] using ih (fun x hx => ha x (by simp [hx]))

lemma pathSegment_append (a b : List Char) (ha : ∀ c ∈ a, c ≠ '?')
    (hb : b = [] ∨ ∃ t, b = '?' :: t) : pathSegmentOf (a ++ b) = a :=
  takeWhile_q_append a b ha hb

lemma mergeSlashes_unfold (p : List Char) :
    PathTransformer.mergeSlashes p =
      if hasDoubleSlash (pathSegmentOf p) then
        mergedOf (pathSegmentOf p) ++ querySuffixOf p
      else p := by
  unfold PathTransformer.mergeSlashes mergedOf
  by_cases h : hasDoubleSlash (pathSegmentOf p) = true <;>
    simp [h, List.append_assoc]

lemma PathUtil_mergeSlashes_eq (headers : RequestHeaderMap) :
    PathUtil.mergeSlashes headers = ⟨PathTransformer.mergeSlashes headers.path⟩ := by
  unfold PathUtil.mergeSlashes PathTransformer.mergeSlashes
  by_cases h : hasDoubleSlash (pathSegmentOf headers.path) = true <;> simp [h]

lemma mergeSlashes_characterization (p : List Char) :
    PathTransformer.mergeSlashes p =
      if hasDoubleSlash (pathSegmentOf p) &&
          (pathSegmentOf p).all (fun c => c = '/') then
        '/' :: '/' :: querySuffixOf p
      else
        collapseRuns (pathSegmentOf p) ++ querySuffixOf p := by
  rw [mergeSlashes_unfold]
  by_cases hds : hasDoubleSlash (pathSegmentOf p) = true
  · by_cases hall : ∀ x ∈ pathSegmentOf p, x = '/'
    · have hsegnil : (splitOnChar '/' (pathSegmentOf p)).filter (fun g => g ≠ []) = [] :=
        (segs_nil_iff _).mpr hall
      have hallb : (pathSegmentOf p).all (fun c => decide (c = '/')) = true := by
        rw [List.all_eq_true]
        intro x hx
        exact decide_eq_true (hall x hx)
      rw [if_pos hds, if_pos (by rw [hds, hallb]; rfl)]
      obtain ⟨c, d, rest, hshape⟩ := hasDoubleSlash_shape _ hds
      have hc : c = '/' := hall c (by rw [hshape]; simp)
      have hlast : (pathSegmentOf p).getLast? = some '/' :=
        getLast?_all_slash _ (by rw [hshape]; simp) hall
      unfold mergedOf
      rw [hsegnil, intercalate_nil, endsWithSlash_of_getLast _ hlast]
      rw [hshape, hc, startsWithSlash_cons]
      simp
    · have hsegne : (splitOnChar '/' (pathSegmentOf p)).filter (fun g => g ≠ []) ≠ [] :=
        fun h => hall ((segs_nil_iff _).mp h)
      have hbridge := mergedOf_eq_collapseRuns _ hsegne
      have hallb : (pathSegmentOf p).all (fun c => decide (c = '/')) = false := by
        cases hx : (pathSegmentOf p).all (fun c => decide (c = '/')) with
        | false => rfl
        | true =>
          exact absurd (fun x hx2 => of_decide_eq_true (List.all_eq_true.mp hx x hx2)) hall
      rw [if_pos hds, if_neg (by rw [hallb]; simp), hbridge]
  · have hds' : hasDoubleSlash (pathSegmentOf p) = false := by
      cases hx : hasDoubleSlash (pathSegmentOf p) with
      | false => rfl
      | true => exact absurd hx hds
    rw [if_neg hds, if_neg (by rw [hds']; simp)]
    rw [collapseRuns_id _ hds', pathSegment_append_querySuffix]

lemma mergeSlashes_idem (p : List Char) :
    PathTransformer.mergeSlashes (PathTransformer.mergeSlashes p) =
      PathTransformer.mergeSlashes p := by
  rw [mergeSlashes_characterization p]
  by_cases hcond : (hasDoubleSlash (pathSegmentOf p) &&
      (pathSegmentOf p).all (fun c => c = '/')) = true
  · rw [if_pos hcond]
    have hq := querySuffix_shape p
    have hseg : pathSegmentOf ('/' :: '/' :: querySuffixOf p) = ['/', '/'] := by
      have := pathSegment_append ['/', '/'] (querySuffixOf p) (by intro c hc; simp at hc; simp [hc]) hq
      simpa using this
    have hqs : querySuffixOf ('/' :: '/' :: querySuffixOf p) = querySuffixOf p := by
      have := querySuffix_append ['/', '/'] (querySuffixOf p) (by intro c hc; simp at hc; simp [hc]) hq
      simpa using this
    rw [mergeSlashes_characterization, hseg, hqs]
    rw [if_pos (by decide)]
  · rw [if_neg hcond]
    have hnq : ∀ c ∈ collapseRuns (pathSegmentOf p), c ≠ '?' := by
      intro c hc
      have hmem := mem_collapseRuns _ c hc
      intro hceq
      subst hceq
      exact not_mem_pathSegment p hmem
    have hq := querySuffix_shape p
    have hseg : pathSegmentOf (collapseRuns (pathSegmentOf p) ++ querySuffixOf p) =
        collapseRuns (pathSegmentOf p) :=
      pathSegment_append _ _ hnq hq
    have hqs : querySuffixOf (collapseRuns (pathSegmentOf p) ++ querySuffixOf p) =
        querySuffixOf p :=
      querySuffix_append _ _ hnq hq
    rw [mergeSlashes_characterization, hseg, hqs]
    have hnd : hasDoubleSlash (collapseRuns (pathSegmentOf p)) = false :=
      collapseRuns_no_double _
    rw [if_neg (by rw [hnd]; simp)]
    rw [collapseRuns_id _ hnd]

lemma unreserved_facts (c : Char) (h : isUnreservedChar c = true) :
    c ≠ '%' ∧ 32 ≤ c.toNat := by
  constructor
  · intro hceq
    subst hceq
    have hfalse : isUnreservedChar '%' = false := by decide
    rw [hfalse] at h
    exact Bool.noConfusion h
  · unfold isUnreservedChar at h
    simp only [Bool.or_eq_true, Bool.and_eq_true, decide_eq_true_eq] at h
    rcases h with (((((h | h) | h) | h) | h) | h) | h
    · omega
    · omega
    · omega
    · subst h; decide
    · subst h; decide
    · subst h; decide
    · subst h; decide

lemma hex_ne_slash (c : Char) (v : Nat) (h : hexDigitVal c = some v) : c ≠ '/' := by
  intro hceq
  subst hceq
  have : hexDigitVal '/' = none := by decide
  rw [this] at h
  exact Option.noConfusion h

lemma decode_nil_eq : percentDecodeUnreserved [] = some [] := rfl

lemma decode_percent_eq (a b : Char) (rest2 : List Char) (ha hb : Nat)
    (hha : hexDigitVal a = some ha) (hhb : hexDigitVal b = some hb) :
    percentDecodeUnreserved ('%' :: a :: b :: rest2) =
      match percentDecodeUnreserved rest2 with
      | none => none
      | some tail =>
        if isUnreservedChar (Char.ofNat (16 * ha + hb)) then
          some (Char.ofNat (16 * ha + hb) :: tail)
        else some ('%' :: a :: b :: tail) := by
  rw [percentDecodeUnreserved.eq_def]
  simp only [if_pos rfl, hha, hhb]
  simp

lemma decode_other_eq (c : Char) (rest : List Char) (hc : ¬ c = '%')
    (hctl : ¬ c.toNat < 32) :
    percentDecodeUnreserved (c :: rest) =
      match percentDecodeUnreserved rest with
      | none => none
      | some tail => some (c :: tail) := by
  rw [percentDecodeUnreserved.eq_def]
  simp only [if_neg hc, if_neg hctl]

lemma wd_of_decode (s : List Char) :
    ∀ d, percentDecodeUnreserved s = some d → WellDecoded d := by
  induction s using percentDecodeUnreserved.induct with
  | case1 =>
    intro d h
    rw [decode_nil_eq] at h
    injection h with h2
    subst h2
    exact WellDecoded.nil
  | case2 a b rest2 ha hb hhb hha hnone ih =>
    intro d h
    rw [decode_percent_eq a b rest2 ha hb hha hhb] at h
    simp only [hnone] at h
    exact Option.noConfusion h
  | case3 a b rest2 ha hb hhb hha tail htail hunres ih =>
    intro d h
    rw [decode_percent_eq a b rest2 ha hb hha hhb] at h
    simp only [htail] at h
    rw [if_pos hunres] at h
    injection h with h2
    subst h2
    have hfacts := unreserved_facts _ hunres
    exact WellDecoded.lit _ _ hfacts.1 hfacts.2 (ih tail htail)
  | case4 a b rest2 ha hb hhb hha tail htail hunres ih =>
    intro d h
    rw [decode_percent_eq a b rest2 ha hb hha hhb] at h
    simp only [htail] at h
    rw [if_neg hunres] at h
    injection h with h2
    subst h2
    exact WellDecoded.triplet a b tail ha hb hha hhb
      (Bool.eq_false_iff.mpr hunres) (ih tail htail)
  | case5 a b rest2 hfail =>
    intro d h
    rw [percentDecodeUnreserved.eq_2, if_pos rfl] at h
    cases hxa : hexDigitVal a with
    | none => simp [hxa] at h
    | some va =>
      cases hxb : hexDigitVal b with
      | none => simp [hxa, hxb] at h
      | some vb => exact (hfail va vb hxa hxb).elim
  | case6 rest hshape =>
    intro d h
    rw [percentDecodeUnreserved.eq_3 '%' rest hshape, if_pos rfl] at h
    exact Option.noConfusion h
  | case7 c rest hc hctl =>
    intro d h
    rw [percentDecodeUnreserved.eq_def] at h
    simp only [if_neg hc, if_pos hctl] at h
    exact Option.noConfusion h
  | case8 c rest hc hctl hnone ih =>
    intro d h
    rw [decode_other_eq c rest hc hctl] at h
    simp only [hnone] at h
    exact Option.noConfusion h
  | case9 c rest hc hctl tail htail ih =>
    intro d h
    rw [decode_other_eq c rest hc hctl] at h
    simp only [htail] at h
    injection h with h2
    subst h2
    exact WellDecoded.lit c tail hc (by omega) (ih tail htail)

lemma decode_of_wd (d : List Char) (h : WellDecoded d) :
    percentDecodeUnreserved d = some d := by
  induction h with
  | nil => rfl
  | lit c rest hc hge hrest ih =>
    rw [decode_other_eq c rest hc (by omega)]
    simp only [ih]
  | triplet a b rest ha hb hha hhb hres hrest ih =>
    rw [decode_percent_eq a b rest ha hb hha hhb]
    simp only [ih]
    rw [if_neg (by simp [hres])]

lemma wd_append (a b : List Char) (hwa : WellDecoded a) (hwb : WellDecoded b) :
    WellDecoded (a ++ b) := by
  induction hwa with
  | nil => simpa using hwb
  | lit c rest hc hge hrest ih => exact WellDecoded.lit c _ hc hge ih
  | triplet x y rest hx hy hhx hhy hres hrest ih =>
    exact WellDecoded.triplet x y _ hx hy hhx hhy hres ih

lemma wd_slash : WellDecoded ['/'] :=
  WellDecoded.lit '/' [] (by decide) (by decide) WellDecoded.nil

lemma wd_intercalate : ∀ gs : List (List Char), (∀ g ∈ gs, WellDecoded g) →
    WellDecoded (List.intercalate ['/'] gs) := by
  intro gs
  induction gs with
  | nil =>
    intro _
    rw [intercalate_nil]
    exact WellDecoded.nil
  | cons g t ih =>
    intro hall
    cases t with
    | nil =>
      rw [intercalate_single]
      exact hall g (by simp)
    | cons g2 t2 =>
      rw [intercalate_cons₂]
      exact wd_append _ _ (wd_append _ _ (hall g (by simp)) wd_slash)
        (ih (fun x hx => hall x (List.mem_cons_of_mem g hx)))

lemma wd_splitOnChar (d : List Char) (h : WellDecoded d) :
    ∀ g ∈ splitOnChar '/' d, WellDecoded g := by
  induction h with
  | nil =>
    intro g hg
    simp [splitOnChar] at hg
    subst hg
    exact WellDecoded.nil
  | lit c rest hc hge hrest ih =>
    intro g hg
    by_cases hcs : c = '/'
    · subst hcs
      rw [splitOnChar_cons_sep] at hg
      rcases List.mem_cons.mp hg with rfl | hg
      · exact WellDecoded.nil
      · exact ih g hg
    · obtain ⟨g0, gs0, hr, hsplit⟩ := splitOnChar_cons_ne '/' c rest hcs
      rw [hsplit] at hg
      rcases List.mem_cons.mp hg with rfl | hg
      · exact WellDecoded.lit c g0 hc hge
          (ih g0 (by rw [hr]; exact List.mem_cons_self _ _))
      · exact ih g (by rw [hr]; exact List.mem_cons_of_mem _ hg)
  | triplet a b rest ha hb hha hhb hres hrest ih =>
    intro g hg
    have hane : a ≠ '/' := hex_ne_slash a ha hha
    have hbne : b ≠ '/' := hex_ne_slash b hb hhb
    obtain ⟨gb, gsb, hrb, hsb⟩ := splitOnChar_cons_ne '/' b rest hbne
    obtain ⟨ga, gsa, hra, hsa⟩ := splitOnChar_cons_ne '/' a (b :: rest) hane
    obtain ⟨gp, gsp, hrp, hsp⟩ :=
      splitOnChar_cons_ne '/' '%' (a :: b :: rest) (by decide)
    rw [hsb, List.cons.injEq] at hra
    obtain ⟨hga, hgsa⟩ := hra
    subst hga; subst hgsa
    rw [hsa, List.cons.injEq] at hrp
    obtain ⟨hgp, hgsp⟩ := hrp
    subst hgp; subst hgsp
    rw [hsp] at hg
    rcases List.mem_cons.mp hg with rfl | hg
    · exact WellDecoded.triplet a b gb ha hb hha hhb hres
        (ih gb (by rw [hrb]; exact List.mem_cons_self _ _))
    · exact ih g (by rw [hrb]; exact List.mem_cons_of_mem _ hg)

lemma stepSegment_cases (stack : List (List Char)) (seg : List Char) :
    stepSegment stack seg = stack ∨ stepSegment stack seg = stack.dropLast ∨
      stepSegment stack seg = stack ++ [seg] := by
  unfold stepSegment
  by_cases h1 : seg = ['.']
  · simp [h1]
  · by_cases h2 : seg = ['.', '.'] <;> simp [h1, h2]

lemma foldl_stepSegment_mem : ∀ (segs acc : List (List Char)) (x : List Char),
    x ∈ List.foldl stepSegment acc segs → x ∈ acc ∨ x ∈ segs := by
  intro segs
  induction segs with
  | nil =>
    intro acc x hx
    exact Or.inl hx
  | cons s t ih =>
    intro acc x hx
    rw [List.foldl_cons] at hx
    rcases ih (stepSegment acc s) x hx with hx2 | hx2
    · rcases stepSegment_cases acc s with he | he | he
      · rw [he] at hx2; exact Or.inl hx2
      · rw [he] at hx2
        exact Or.inl ((List.dropLast_sublist _).subset hx2)
      · rw [he] at hx2
        rcases List.mem_append.mp hx2 with h3 | h3
        · exact Or.inl h3
        · simp at h3
          subst h3
          exact Or.inr (by simp)
    · exact Or.inr (List.mem_cons_of_mem _ hx2)

lemma resolveSegs_mem (segs : List (List Char)) (x : List Char)
    (hx : x ∈ resolveSegs segs) : x ∈ segs := by
  rcases foldl_stepSegment_mem segs [] x hx with h | h
  · simp at h
  · exact h

lemma foldl_stepSegment_nodot : ∀ (segs acc : List (List Char)),
    (∀ x ∈ acc, x ≠ ['.'] ∧ x ≠ ['.', '.']) →
    ∀ x ∈ List.foldl stepSegment acc segs, x ≠ ['.'] ∧ x ≠ ['.', '.'] := by
  intro segs
  induction segs with
  | nil =>
    intro acc hacc x hx
    exact hacc x hx
  | cons s t ih =>
    intro acc hacc x hx
    rw [List.foldl_cons] at hx
    refine ih (stepSegment acc s) ?_ x hx
    intro y hy
    unfold stepSegment at hy
    by_cases h1 : s = ['.']
    · rw [if_pos h1] at hy
      exact hacc y hy
    · rw [if_neg h1] at hy
      by_cases h2 : s = ['.', '.']
      · rw [if_pos h2] at hy
        exact hacc y ((List.dropLast_sublist _).subset hy)
      · rw [if_neg h2] at hy
        rcases List.mem_append.mp hy with h3 | h3
        · exact hacc y h3
        · simp at h3
          subst h3
          exact ⟨h1, h2⟩

lemma resolveSegs_nodot (segs : List (List Char)) :
    ∀ x ∈ resolveSegs segs, x ≠ ['.'] ∧ x ≠ ['.', '.'] :=
  foldl_stepSegment_nodot segs [] (by intro x hx; simp at hx)

lemma foldl_stepSegment_fixed : ∀ (segs acc : List (List Char)),
    (∀ x ∈ segs, x ≠ ['.'] ∧ x ≠ ['.', '.']) →
    List.foldl stepSegment acc segs = acc ++ segs := by
  intro segs
  induction segs with
  | nil =>
    intro acc _
    simp
  | cons s t ih =>
    intro acc hall
    rw [List.foldl_cons]
    have hs := hall s (by simp)
    have hstep : stepSegment acc s = acc ++ [s] := by
      unfold stepSegment
      rw [if_neg hs.1, if_neg hs.2]
    rw [hstep, ih (acc ++ [s]) (fun x hx => hall x (List.mem_cons_of_mem _ hx))]
    simp

lemma resolveSegs_fixed (segs : List (List Char))
    (h : ∀ x ∈ segs, x ≠ ['.'] ∧ x ≠ ['.', '.']) : resolveSegs segs = segs := by
  unfold resolveSegs
  rw [foldl_stepSegment_fixed segs [] h]
  simp

lemma buildPath_cons_empty (t : Bool) (rest : List (List Char)) (hrest : rest ≠ []) :
    buildPath false t ([] :: rest) = buildPath true t rest := by
  unfold buildPath
  cases rest with
  | nil => exact absurd rfl hrest
  | cons r rs =>
    rw [intercalate_cons₂]
    simp

lemma buildPath_concat_empty (l : Bool) (st : List (List Char)) (hst : st ≠ []) :
    buildPath l false (st ++ [[]]) = buildPath l true st := by
  unfold buildPath
  rw [intercalate_concat_empty '/' st hst]
  cases st with
  | nil => exact absurd rfl hst
  | cons s ss => simp

lemma intercalate_getLast (slast : List Char) (hslast : slast ≠ []) :
    ∀ st : List (List Char),
      (List.intercalate ['/'] (st ++ [slast])).getLast? = slast.getLast? := by
  intro st
  cases st with
  | nil =>
    rw [List.nil_append, intercalate_single]
  | cons s ss =>
    rw [intercalate_append_single '/' (s :: ss) slast (by simp)]
    exact List.getLast?_append_of_ne_nil _ hslast

lemma endsWithSlash_false_of_getLast (s : List Char) (y : Char)
    (h : s.getLast? = some y) (hy : y ≠ '/') : endsWithSlash s = false := by
  simp [endsWithSlash, h, hy]

lemma resolveDot_formula (decoded : List Char) :
    resolveDotSegments decoded =
      buildPath (startsWithSlash decoded) (endsWithSlash decoded)
        (resolveSegs
          (if endsWithSlash decoded then
            (if startsWithSlash decoded then (splitOnChar '/' decoded).drop 1
              else splitOnChar '/' decoded).dropLast
          else
            (if startsWithSlash decoded then (splitOnChar '/' decoded).drop 1
              else splitOnChar '/' decoded))) := rfl

lemma getLast?_ne_nil {α : Type} (l : List α) (a : α) (h : l.getLast? = some a) :
    l ≠ [] := by
  intro hnil
  rw [hnil] at h
  exact Option.noConfusion h

lemma resolveDot_trail_true (lead : Bool) (s0 : List Char) (rest : List (List Char))
    (hfree : ∀ g ∈ s0 :: rest, '/' ∉ g)
    (hnodot : ∀ g ∈ s0 :: rest, g ≠ ['.'] ∧ g ≠ ['.', '.'])
    (hhead : lead = true ∨ s0 ≠ []) :
    resolveDotSegments (buildPath lead true (s0 :: rest)) =
      buildPath lead true (s0 :: rest) := by
  have hfree2 : ∀ g ∈ (s0 :: rest) ++ [[]], '/' ∉ g := by
    intro g hg
    rcases List.mem_append.mp hg with hg | hg
    · exact hfree g hg
    · simp at hg; subst hg; simp
  have hsplit : splitOnChar '/' (List.intercalate ['/'] ((s0 :: rest) ++ [[]])) =
      (s0 :: rest) ++ [[]] :=
    splitOnChar_intercalate '/' _ (by simp) hfree2
  have hic : List.intercalate ['/'] ((s0 :: rest) ++ [[]]) =
      List.intercalate ['/'] (s0 :: rest) ++ ['/'] :=
    intercalate_concat_empty '/' _ (by simp)
  have hres : resolveSegs (s0 :: rest) = s0 :: rest := resolveSegs_fixed _ hnodot
  have hbp : buildPath lead true (s0 :: rest) =
      (if lead then ['/'] else []) ++ (List.intercalate ['/'] (s0 :: rest) ++ ['/']) := by
    unfold buildPath
    simp [List.append_assoc]
  cases lead with
  | true =>
    rw [hbp]
    have hone : ((if (true : Bool) then ['/'] else []) : List Char) ++
        (List.intercalate ['/'] (s0 :: rest) ++ ['/']) =
        '/' :: (List.intercalate ['/'] (s0 :: rest) ++ ['/']) := by simp
    rw [hone]
    have hstart : startsWithSlash ('/' :: (List.intercalate ['/'] (s0 :: rest) ++ ['/'])) =
        true := by
      rw [startsWithSlash_cons]; simp
    have hend : endsWithSlash ('/' :: (List.intercalate ['/'] (s0 :: rest) ++ ['/'])) =
        true := by
      apply endsWithSlash_of_getLast
      rw [show ('/' :: (List.intercalate ['/'] (s0 :: rest) ++ ['/'])) =
          (('/' :: List.intercalate ['/'] (s0 :: rest)) ++ ['/']) by simp]
      exact List.getLast?_concat _
    have hraw : splitOnChar '/' ('/' :: (List.intercalate ['/'] (s0 :: rest) ++ ['/'])) =
        [] :: ((s0 :: rest) ++ [[]]) := by
      rw [← hic, splitOnChar_cons_sep, hsplit]
    rw [resolveDot_formula, hstart, hend, hraw]
    simp only [if_true, List.drop_succ_cons, List.drop_zero, List.dropLast_concat, hres]
    rw [hbp]
    simp
  | false =>
    have hs0 : s0 ≠ [] := by
      rcases hhead with h | h
      · exact Bool.noConfusion h
      · exact h
    obtain ⟨x, xs, rfl⟩ : ∃ x xs, s0 = x :: xs := by
      cases s0 with
      | nil => exact absurd rfl hs0
      | cons x xs => exact ⟨x, xs, rfl⟩
    have hx : x ≠ '/' := by
      intro hxe
      exact hfree (x :: xs) (by simp) (by rw [hxe]; simp)
    rw [hbp]
    have hone : ((if (false : Bool) then ['/'] else []) : List Char) ++
        (List.intercalate ['/'] ((x :: xs) :: rest) ++ ['/']) =
        List.intercalate ['/'] ((x :: xs) :: rest) ++ ['/'] := by simp
    rw [hone]
    rw [intercalate_cons_head_cons]
    have hstart : startsWithSlash ((x :: List.intercalate ['/'] (xs :: rest)) ++ ['/']) =
        false := by
      rw [List.cons_append, startsWithSlash_cons]
      simp [hx]
    have hend : endsWithSlash ((x :: List.intercalate ['/'] (xs :: rest)) ++ ['/']) =
        true := by
      apply endsWithSlash_of_getLast
      exact List.getLast?_concat _
    have hraw : splitOnChar '/' ((x :: List.intercalate ['/'] (xs :: rest)) ++ ['/']) =
        ((x :: xs) :: rest) ++ [[]] := by
      rw [← intercalate_cons_head_cons, ← hic, hsplit]
    rw [resolveDot_formula, hstart, hend, hraw]
    simp only [if_true, Bool.false_eq_true, if_false, List.dropLast_concat, hres]
    rw [hbp]
    simp [intercalate_cons_head_cons]

lemma resolveDot_trail_false (lead : Bool) (s0 : List Char) (rest : List (List Char))
    (hfree : ∀ g ∈ s0 :: rest, '/' ∉ g)
    (hnodot : ∀ g ∈ s0 :: rest, g ≠ ['.'] ∧ g ≠ ['.', '.'])
    (hhead : lead = true ∨ s0 ≠ [])
    (slast : List Char) (hlast : (s0 :: rest).getLast? = some slast)
    (hslast : slast ≠ []) :
    resolveDotSegments (buildPath lead false (s0 :: rest)) =
      buildPath lead false (s0 :: rest) := by
  have hne : (s0 :: rest) ≠ ([] : List (List Char)) := by simp
  have hgl : (s0 :: rest).getLast hne = slast := by
    have := List.getLast?_eq_getLast (s0 :: rest) hne
    rw [hlast] at this
    exact (Option.some.injEq _ _).mp this.symm
  have hdec : (s0 :: rest).dropLast ++ [slast] = s0 :: rest := by
    rw [← hgl]
    exact List.dropLast_append_getLast hne
  have hmemlast : slast ∈ s0 :: rest := by
    rw [← hdec]
    exact List.mem_append.mpr (Or.inr (by simp))
  have hicgl : (List.intercalate ['/'] (s0 :: rest)).getLast? = slast.getLast? := by
    rw [← hdec]
    exact intercalate_getLast slast hslast _
  have hy : (List.intercalate ['/'] (s0 :: rest)).getLast? =
      some (slast.getLast hslast) := by
    rw [hicgl]
    exact List.getLast?_eq_getLast slast hslast
  have hymem : slast.getLast hslast ∈ slast := List.getLast_mem hslast
  have hyne : slast.getLast hslast ≠ '/' := by
    intro hye
    exact hfree slast hmemlast (by rw [← hye]; exact hymem)
  have hicne : List.intercalate ['/'] (s0 :: rest) ≠ [] :=
    getLast?_ne_nil _ _ hy
  have hsplit : splitOnChar '/' (List.intercalate ['/'] (s0 :: rest)) = s0 :: rest :=
    splitOnChar_intercalate '/' _ (by simp) hfree
  have hres : resolveSegs (s0 :: rest) = s0 :: rest := resolveSegs_fixed _ hnodot
  have hbp : buildPath lead false (s0 :: rest) =
      (if lead then ['/'] else []) ++ List.intercalate ['/'] (s0 :: rest) := by
    unfold buildPath
    simp
  cases lead with
  | true =>
    rw [hbp]
    have hone : ((if (true : Bool) then ['/'] else []) : List Char) ++
        List.intercalate ['/'] (s0 :: rest) =
        '/' :: List.intercalate ['/'] (s0 :: rest) := by simp
    rw [hone]
    have hstart : startsWithSlash ('/' :: List.intercalate ['/'] (s0 :: rest)) = true := by
      rw [startsWithSlash_cons]; simp
    have hend : endsWithSlash ('/' :: List.intercalate ['/'] (s0 :: rest)) = false := by
      apply endsWithSlash_false_of_getLast _ (slast.getLast hslast) _ hyne
      rw [show ('/' :: List.intercalate ['/'] (s0 :: rest)) =
          ['/'] ++ List.intercalate ['/'] (s0 :: rest) by simp]
      rw [List.getLast?_append_of_ne_nil _ hicne]
      exact hy
    have hraw : splitOnChar '/' ('/' :: List.intercalate ['/'] (s0 :: rest)) =
        [] :: (s0 :: rest) := by
      rw [splitOnChar_cons_sep, hsplit]
    rw [resolveDot_formula, hstart, hend, hraw]
    simp only [if_true, Bool.false_eq_true, if_false, List.drop_succ_cons,
      List.drop_zero, hres]
    rw [hbp]
    simp
  | false =>
    have hs0 : s0 ≠ [] := by
      rcases hhead with h | h
      · exact Bool.noConfusion h
      · exact h
    obtain ⟨x, xs, rfl⟩ : ∃ x xs, s0 = x :: xs := by
      cases s0 with
      | nil => exact absurd rfl hs0
      | cons x xs => exact ⟨x, xs, rfl⟩
    have hx : x ≠ '/' := by
      intro hxe
      exact hfree (x :: xs) (by simp) (by rw [hxe]; simp)
    rw [hbp]
    have hone : ((if (false : Bool) then ['/'] else []) : List Char) ++
        List.intercalate ['/'] ((x :: xs) :: rest) =
        List.intercalate ['/'] ((x :: xs) :: rest) := by simp
    rw [hone]
    have hstart : startsWithSlash (List.intercalate ['/'] ((x :: xs) :: rest)) = false := by
      rw [intercalate_cons_head_cons, startsWithSlash_cons]
      simp [hx]
    have hend : endsWithSlash (List.intercalate ['/'] ((x :: xs) :: rest)) = false :=
      endsWithSlash_false_of_getLast _ (slast.getLast hslast) hy hyne
    rw [resolveDot_formula, hstart, hend, hsplit]
    simp only [Bool.false_eq_true, if_false, hres]
    rw [hbp]
    simp

lemma resolveDot_buildPath_fixed : ∀ (n : Nat) (stack : List (List Char)),
    stack.length ≤ n →
    (∀ g ∈ stack, '/' ∉ g) →
    (∀ g ∈ stack, g ≠ ['.'] ∧ g ≠ ['.', '.']) →
    ∀ lead trail : Bool,
      resolveDotSegments (buildPath lead trail stack) = buildPath lead trail stack := by
  intro n
  induction n with
  | zero =>
    intro stack hlen _ _ lead trail
    have hnil : stack = [] := List.length_eq_zero.mp (Nat.le_zero.mp hlen)
    subst hnil
    cases lead <;> cases trail <;> decide
  | succ n ihn =>
    intro stack hlen hfree hnodot lead trail
    cases stack with
    | nil => cases lead <;> cases trail <;> decide
    | cons s0 rest =>
      by_cases hlead0 : lead = false ∧ s0 = []
      · obtain ⟨hl, hs⟩ := hlead0
        subst hl; subst hs
        cases rest with
        | nil => cases trail <;> decide
        | cons r rs =>
          rw [buildPath_cons_empty trail (r :: rs) (by simp)]
          exact ihn (r :: rs) (by simp at hlen ⊢; omega)
            (fun g hg => hfree g (List.mem_cons_of_mem _ hg))
            (fun g hg => hnodot g (List.mem_cons_of_mem _ hg)) true trail
      · have hhead : lead = true ∨ s0 ≠ [] := by
          rcases not_and_or.mp hlead0 with h | h
          · left
            cases lead with
            | true => rfl
            | false => exact absurd rfl h
          · right; exact h
        cases trail with
        | true => exact resolveDot_trail_true lead s0 rest hfree hnodot hhead
        | false =>
          have hne : (s0 :: rest) ≠ ([] : List (List Char)) := by simp
          obtain ⟨slast, hlast⟩ : ∃ y, (s0 :: rest).getLast? = some y :=
            ⟨(s0 :: rest).getLast hne, List.getLast?_eq_getLast _ hne⟩
          by_cases hslast : slast = []
          · subst hslast
            have hgl : (s0 :: rest).getLast hne = [] := by
              have := List.getLast?_eq_getLast (s0 :: rest) hne
              rw [hlast] at this
              exact ((Option.some.injEq _ _).mp this.symm)
            have hdec : (s0 :: rest).dropLast ++ [([] : List Char)] = s0 :: rest := by
              rw [← hgl]
              exact List.dropLast_append_getLast hne
            cases hdl : (s0 :: rest).dropLast with
            | nil =>
              rw [hdl] at hdec
              rw [List.nil_append] at hdec
              rw [List.cons.injEq] at hdec
              obtain ⟨hs0, hrest⟩ := hdec
              have hl : lead = true := by
                rcases hhead with h | h
                · exact h
                · exact absurd hs0.symm h
              subst hl
              rw [← hs0, ← hrest]
              decide
            | cons q qs =>
              rw [hdl] at hdec
              rw [← hdec, buildPath_concat_empty lead (q :: qs) (by simp)]
              have hsub : ∀ g ∈ q :: qs, g ∈ s0 :: rest := by
                intro g hg
                rw [← hdl] at hg
                exact (List.dropLast_sublist _).subset hg
              have hlen2 : (q :: qs).length ≤ n := by
                have h1 : (s0 :: rest).dropLast.length = (s0 :: rest).length - 1 :=
                  List.length_dropLast _
                rw [hdl] at h1
                have h2 : (s0 :: rest).length = rest.length + 1 := by simp
                have h4 : (s0 :: rest).length ≤ n + 1 := hlen
                omega
              exact ihn (q :: qs) hlen2
                (fun g hg => hfree g (hsub g hg))
                (fun g hg => hnodot g (hsub g hg)) lead true
          · exact resolveDot_trail_false lead s0 rest hfree hnodot hhead slast hlast hslast

lemma wd_slash_opt (b : Bool) : WellDecoded (if b then ['/'] else []) := by
  cases b
  · simpa using WellDecoded.nil
  · simpa using wd_slash

lemma mem_coreSegments (d g : List Char) (hg : g ∈ coreSegments d) :
    g ∈ splitOnChar '/' d := by
  simp only [coreSegments] at hg
  have hinner : ∀ x, x ∈ (if startsWithSlash d then (splitOnChar '/' d).drop 1
      else splitOnChar '/' d) → x ∈ splitOnChar '/' d := by
    intro x hx
    by_cases hs : startsWithSlash d = true
    · rw [if_pos hs] at hx
      exact List.drop_subset _ _ hx
    · rw [if_neg hs] at hx
      exact hx
  by_cases he : endsWithSlash d = true
  · rw [if_pos he] at hg
    exact hinner g ((List.dropLast_sublist _).subset hg)
  · rw [if_neg he] at hg
    exact hinner g hg

lemma wd_buildPath (lead trail : Bool) (stack : List (List Char))
    (h : ∀ g ∈ stack, WellDecoded g) : WellDecoded (buildPath lead trail stack) := by
  unfold buildPath
  exact wd_append _ _ (wd_append _ _ (wd_slash_opt lead) (wd_intercalate stack h))
    (wd_slash_opt _)

lemma canonicalizePath_idem (p c : List Char) (h : canonicalizePath p = some c) :
    canonicalizePath c = some c := by
  unfold canonicalizePath at h
  cases hd : percentDecodeUnreserved p with
  | none =>
    rw [hd] at h
    exact Option.noConfusion h
  | some d =>
    rw [hd] at h
    simp only [Option.map_some', Option.some.injEq] at h
    have hstackmem : ∀ g ∈ resolveSegs (coreSegments d), g ∈ splitOnChar '/' d :=
      fun g hg => mem_coreSegments d g (resolveSegs_mem _ g hg)
    have hstackfree : ∀ g ∈ resolveSegs (coreSegments d), '/' ∉ g :=
      fun g hg => mem_splitOnChar_no_sep '/' d g (hstackmem g hg)
    have hstacknodot := resolveSegs_nodot (coreSegments d)
    have hwd : WellDecoded d := wd_of_decode p d hd
    have hwdstack : ∀ g ∈ resolveSegs (coreSegments d), WellDecoded g :=
      fun g hg => wd_splitOnChar d hwd g (hstackmem g hg)
    have hcform : c = buildPath (startsWithSlash d) (endsWithSlash d)
        (resolveSegs (coreSegments d)) := by
      rw [← h]
      rfl
    have hwdc : WellDecoded c := by
      rw [hcform]
      exact wd_buildPath _ _ _ hwdstack
    have hfix : resolveDotSegments c = c := by
      conv_lhs => rw [hcform]
      rw [resolveDot_buildPath_fixed (resolveSegs (coreSegments d)).length _
        le_rfl hstackfree hstacknodot _ _]
      rw [← hcform]
    unfold canonicalizePath
    rw [decode_of_wd c hwdc]
    simp [hfix]

lemma mem_decode (s : List Char) :
    ∀ d, percentDecodeUnreserved s = some d →
      ∀ x ∈ d, x ∈ s ∨ isUnreservedChar x = true := by
  induction s using percentDecodeUnreserved.induct with
  | case1 =>
    intro d h x hx
    rw [decode_nil_eq] at h
    injection h with h2
    subst h2
    simp at hx
  | case2 a b rest2 ha hb hhb hha hnone ih =>
    intro d h x hx
    rw [decode_percent_eq a b rest2 ha hb hha hhb] at h
    simp only [hnone] at h
    exact Option.noConfusion h
  | case3 a b rest2 ha hb hhb hha tail htail hunres ih =>
    intro d h x hx
    rw [decode_percent_eq a b rest2 ha hb hha hhb] at h
    simp only [htail] at h
    rw [if_pos hunres] at h
    injection h with h2
    subst h2
    rcases List.mem_cons.mp hx with rfl | hx
    · exact Or.inr hunres
    · rcases ih tail htail x hx with h3 | h3
      · exact Or.inl (by simp [h3])
      · exact Or.inr h3
  | case4 a b rest2 ha hb hhb hha tail htail hunres ih =>
    intro d h x hx
    rw [decode_percent_eq a b rest2 ha hb hha hhb] at h
    simp only [htail] at h
    rw [if_neg hunres] at h
    injection h with h2
    subst h2
    rcases List.mem_cons.mp hx with rfl | hx
    · simp
    · rcases List.mem_cons.mp hx with rfl | hx
      · simp
      · rcases List.mem_cons.mp hx with rfl | hx
        · simp
        · rcases ih tail htail x hx with h3 | h3
          · exact Or.inl (by simp [h3])
          · exact Or.inr h3
  | case5 a b rest2 hfail =>
    intro d h x hx
    rw [percentDecodeUnreserved.eq_2, if_pos rfl] at h
    cases hxa : hexDigitVal a with
    | none => simp [hxa] at h
    | some va =>
      cases hxb : hexDigitVal b with
      | none => simp [hxa, hxb] at h
      | some vb => exact (hfail va vb hxa hxb).elim
  | case6 rest hshape =>
    intro d h x hx
    rw [percentDecodeUnreserved.eq_3 '%' rest hshape, if_pos rfl] at h
    exact Option.noConfusion h
  | case7 c rest hc hctl =>
    intro d h x hx
    rw [percentDecodeUnreserved.eq_def] at h
    simp only [if_neg hc, if_pos hctl] at h
    exact Option.noConfusion h
  | case8 c rest hc hctl hnone ih =>
    intro d h x hx
    rw [decode_other_eq c rest hc hctl] at h
    simp only [hnone] at h
    exact Option.noConfusion h
  | case9 c rest hc hctl tail htail ih =>
    intro d h x hx
    rw [decode_other_eq c rest hc hctl] at h
    simp only [htail] at h
    injection h with h2
    subst h2
    rcases List.mem_cons.mp hx with rfl | hx
    · simp
    · rcases ih tail htail x hx with h3 | h3
      · exact Or.inl (by simp [h3])
      · exact Or.inr h3

lemma canonical_no_qmark (p c : List Char) (hq : '?' ∉ p)
    (h : canonicalizePath p = some c) : '?' ∉ c := by
  unfold canonicalizePath at h
  cases hd : percentDecodeUnreserved p with
  | none =>
    rw [hd] at h
    exact Option.noConfusion h
  | some d =>
    rw [hd] at h
    simp only [Option.map_some', Option.some.injEq] at h
    have hdq : '?' ∉ d := by
      intro hmem
      rcases mem_decode p d hd '?' hmem with h2 | h2
      · exact hq h2
      · rw [show isUnreservedChar '?' = false from by decide] at h2
        exact Bool.noConfusion h2
    intro hmem
    rw [← h] at hmem
    simp only [resolveDotSegments, buildPath] at hmem
    rcases List.mem_append.mp hmem with hmem | hmem
    · rcases List.mem_append.mp hmem with hmem | hmem
      · by_cases hL : startsWithSlash d = true
        · rw [if_pos hL] at hmem
          simp at hmem
        · rw [if_neg hL] at hmem
          simp at hmem
      · rcases mem_intercalate '/' _ '?' hmem with h2 | ⟨g, hg, hxg⟩
        · exact absurd h2 (by decide)
        · exact hdq (mem_of_mem_splitOnChar '/' d g
            (mem_coreSegments d g (resolveSegs_mem _ g hg)) '?' hxg)
    · by_cases hT : (endsWithSlash d && !(resolveSegs (coreSegments d)).isEmpty) = true
      · rw [if_pos hT] at hmem
        simp at hmem
      · rw [if_neg hT] at hmem
        simp at hmem

lemma merge_query (p : List Char) :
    querySuffixOf (PathTransformer.mergeSlashes p) = querySuffixOf p := by
  rw [mergeSlashes_characterization p]
  by_cases hcond : (hasDoubleSlash (pathSegmentOf p) &&
      (pathSegmentOf p).all (fun c => c = '/')) = true
  · rw [if_pos hcond]
    have := querySuffix_append ['/', '/'] (querySuffixOf p)
      (by intro c hc; simp at hc; simp [hc]) (querySuffix_shape p)
    simpa using this
  · rw [if_neg hcond]
    refine querySuffix_append _ _ ?_ (querySuffix_shape p)
    intro c hc
    intro hceq
    subst hceq
    exact not_mem_pathSegment p (mem_collapseRuns _ '?' hc)

lemma removeQueryAndFragment_eq : ∀ p : List Char,
    PathUtil.removeQueryAndFragment p =
      p.takeWhile (fun c => c ≠ '?' ∧ c ≠ '#') := by
  intro p
  induction p with
  | nil => rfl
  | cons c rest ih =>
    by_cases hc : c ∈ ['?', '#']
    · have hff : findFirstOf (c :: rest) ['?', '#'] = some 0 := by
        have hstep : findFirstOf (c :: rest) ['?', '#'] =
            if c ∈ ['?', '#'] then some 0
            else (findFirstOf rest ['?', '#']).map (fun i => i + 1) := rfl
        rw [hstep, if_pos hc]
      have hcp : ¬(c ≠ '?' ∧ c ≠ '#') := by
        simp at hc
        rcases hc with rfl | rfl <;> simp
      unfold PathUtil.removeQueryAndFragment
      rw [hff, List.takeWhile_cons]
      simp [hcp]
    · have hff : findFirstOf (c :: rest) ['?', '#'] =
          (findFirstOf rest ['?', '#']).map (fun i => i + 1) := by
        have hstep : findFirstOf (c :: rest) ['?', '#'] =
            if c ∈ ['?', '#'] then some 0
            else (findFirstOf rest ['?', '#']).map (fun i => i + 1) := rfl
        rw [hstep, if_neg hc]
      have hcp : c ≠ '?' ∧ c ≠ '#' := by
        simp at hc
        exact hc
      unfold PathUtil.removeQueryAndFragment at ih ⊢
      rw [hff, List.takeWhile_cons]
      rw [if_pos (by simp [hcp.1, hcp.2])]
      cases hres : findFirstOf rest ['?', '#'] with
      | none =>
        rw [hres] at ih
        simp only [Option.map_none']
        rw [← ih]
      | some i =>
        rw [hres] at ih
        simp only [Option.map_some']
        rw [List.take_succ_cons, ← ih]

lemma transformations_filterMap : ∀ ops : List Operation,
    PathTransformer.transformations ops = ops.filterMap recognizedTransformation := by
  intro ops
  induction ops with
  | nil => rfl
  | cons op rest ih =>
    cases op <;>
      simp [PathTransformer.transformations, recognizedTransformation,
        List.filterMap_cons, ih]

lemma transformations_append : ∀ ops1 ops2 : List Operation,
    PathTransformer.transformations (ops1 ++ ops2) =
      PathTransformer.transformations ops1 ++ PathTransformer.transformations ops2 := by
  intro ops1 ops2
  induction ops1 with
  | nil => rfl
  | cons op r ih =>
    cases op <;> simp [PathTransformer.transformations, ih]

lemma foldlM_option_append (l1 l2 : List (List Char → Option (List Char))) :
    ∀ s : List Char,
      (l1 ++ l2).foldlM
          (fun (s : List Char) (t : List Char → Option (List Char)) => t s) s =
        (l1.foldlM
            (fun (s : List Char) (t : List Char → Option (List Char)) => t s) s).bind
          (l2.foldlM
            (fun (s : List Char) (t : List Char → Option (List Char)) => t s)) := by
  induction l1 with
  | nil =>
    intro s
    simp
  | cons t l1 ih =>
    intro s
    simp only [List.cons_append, List.foldlM_cons]
    cases ht : t s with
    | none => simp
    | some s2 => simpa using ih s2

lemma transform_append (ops1 ops2 : List Operation) (s : List Char) :
    PathTransformer.transform (ops1 ++ ops2) s =
      (PathTransformer.transform ops1 s).bind (PathTransformer.transform ops2) := by
  unfold PathTransformer.transform
  rw [transformations_append]
  exact foldlM_option_append _ _ s

/-- C1: for every request header map whose path is present, canonicalPath
returns false and leaves the headers untouched when canonicalization of the
path segment (the part before the first question mark) fails, and otherwise
rewrites the path header to the canonical path segment concatenated with
the original query suffix and returns true. -/
theorem claim_C1 (headers : RequestHeaderMap) :
    (canonicalizePath (pathSegmentOf headers.path) = none →
      PathUtil.canonicalPath headers = (false, headers)) ∧
    (∀ c, canonicalizePath (pathSegmentOf headers.path) = some c →
      PathUtil.canonicalPath headers =
        (true, { path := c ++ querySuffixOf headers.path })) := by
  constructor
  · intro h
    simp only [PathUtil.canonicalPath, h]
  · intro c h
    simp only [PathUtil.canonicalPath, h]

theorem claim_C1_witness :
    PathUtil.canonicalPath ⟨['/', 'a', '?', 'q']⟩ =
      (true, ⟨['/', 'a'] ++ querySuffixOf ['/', 'a', '?', 'q']⟩) :=
  (claim_C1 ⟨['/', 'a', '?', 'q']⟩).2 ['/', 'a'] (by decide)

/-- C2: the specification demands that a canonicalization failure be
propagated as a pipeline failure by the rfc-normalize step; the code
instead unwraps the empty optional unchecked (no failure channel exists in
its return type), which throws or aborts.  This theorem evaluates the
embedding at a failing input: canonicalization of the percent string fails,
and the rfc-normalize step and a pipeline containing it reach the unchecked
unwrap, modelled by `none`. -/
theorem claim_C2 :
    canonicalizePath (pathSegmentOf ['%']) = none ∧
    PathTransformer.rfcNormalize ['%'] = none ∧
    PathTransformer.transform [Operation.normalizePathRfc3986] ['%'] = none := by
  exact ⟨by decide, by decide, by decide⟩

/-- C3: for every input string containing a question mark, each
transformation (rfc normalization on success, both merge functions, and
canonicalPath on success) produces a result whose suffix starting at the
first question mark is byte-identical to the input suffix starting at the
first question mark. -/
theorem claim_C3 (p : List Char) (hq : '?' ∈ p) :
    (∀ c, PathTransformer.rfcNormalize p = some c →
      querySuffixOf c = querySuffixOf p) ∧
    querySuffixOf (PathTransformer.mergeSlashes p) = querySuffixOf p ∧
    (∀ h2, PathUtil.canonicalPath ⟨p⟩ = (true, h2) →
      querySuffixOf h2.path = querySuffixOf p) ∧
    querySuffixOf (PathUtil.mergeSlashes ⟨p⟩).path = querySuffixOf p := by
  refine ⟨?_, merge_query p, ?_, ?_⟩
  · intro c h
    unfold PathTransformer.rfcNormalize at h
    cases hc : canonicalizePath (pathSegmentOf p) with
    | none =>
      rw [hc] at h
      exact Option.noConfusion h
    | some c2 =>
      rw [hc] at h
      injection h with h2
      subst h2
      refine querySuffix_append _ _ ?_ (querySuffix_shape p)
      intro x hx hxe
      subst hxe
      exact not_mem_pathSegment p
        (canonical_no_qmark _ _ (not_mem_pathSegment p) hc |>.elim hx)
  · intro h2 h
    cases hc : canonicalizePath (pathSegmentOf p) with
    | none =>
      simp only [PathUtil.canonicalPath, hc] at h
      simp at h
    | some c2 =>
      simp only [PathUtil.canonicalPath, hc, Prod.mk.injEq, true_and] at h
      rw [← h]
      refine querySuffix_append _ _ ?_ (querySuffix_shape p)
      intro x hx hxe
      subst hxe
      exact (canonical_no_qmark _ _ (not_mem_pathSegment p) hc) hx
  · rw [PathUtil_mergeSlashes_eq]
    exact merge_query p

theorem claim_C3_witness :
    ('?' ∈ ['/', 'a', '/', '/', 'b', '?', 'x']) ∧
    querySuffixOf (PathTransformer.mergeSlashes ['/', 'a', '/', '/', 'b', '?', 'x']) =
      querySuffixOf ['/', 'a', '/', '/', 'b', '?', 'x'] :=
  ⟨by decide, (claim_C3 ['/', 'a', '/', '/', 'b', '?', 'x'] (by decide)).2.1⟩

/-- C4 counterexample: on the path consisting of exactly two slashes, the
code merge returns the two slashes unchanged (leading slash plus empty join
plus trailing slash), while the stated contract (every run of two or more
slashes collapsed to one) produces a single slash. -/
theorem claim_C4_counterexample :
    PathTransformer.mergeSlashes ['/', '/'] = ['/', '/'] ∧
    specMergeSlashes ['/', '/'] = ['/'] ∧
    PathTransformer.mergeSlashes ['/', '/'] ≠ specMergeSlashes ['/', '/'] := by
  exact ⟨by decide, by decide, by decide⟩

/-- C4 (amended): both merge functions replace every run of two or more
consecutive slashes in the path segment by a single slash, preserving a
leading and a trailing slash and the verbatim query suffix, EXCEPT when the
path segment consists entirely of slashes and contains a double slash, in
which case the resulting path segment is exactly two slashes.  In
particular the double-slashed path of a and b merges to the single-slashed
form. -/
theorem claim_C4 :
    (∀ p : List Char,
      PathTransformer.mergeSlashes p =
        if hasDoubleSlash (pathSegmentOf p) &&
            (pathSegmentOf p).all (fun c => c = '/') then
          '/' :: '/' :: querySuffixOf p
        else collapseRuns (pathSegmentOf p) ++ querySuffixOf p) ∧
    (∀ headers : RequestHeaderMap,
      PathUtil.mergeSlashes headers =
        ⟨if hasDoubleSlash (pathSegmentOf headers.path) &&
            (pathSegmentOf headers.path).all (fun c => c = '/') then
          '/' :: '/' :: querySuffixOf headers.path
        else collapseRuns (pathSegmentOf headers.path) ++ querySuffixOf headers.path⟩) ∧
    PathTransformer.mergeSlashes ['/', '/', 'a', '/', '/', 'b', '/', '/'] =
      ['/', 'a', '/', 'b', '/'] := by
  refine ⟨mergeSlashes_characterization, ?_, by decide⟩
  intro headers
  rw [PathUtil_mergeSlashes_eq, mergeSlashes_characterization]

/-- C5: both merge functions are idempotent: applying the merge twice gives
the same result as applying it once. -/
theorem claim_C5 :
    (∀ p : List Char,
      PathTransformer.mergeSlashes (PathTransformer.mergeSlashes p) =
        PathTransformer.mergeSlashes p) ∧
    (∀ headers : RequestHeaderMap,
      PathUtil.mergeSlashes (PathUtil.mergeSlashes headers) =
        PathUtil.mergeSlashes headers) := by
  refine ⟨mergeSlashes_idem, ?_⟩
  intro headers
  rw [PathUtil_mergeSlashes_eq headers, PathUtil_mergeSlashes_eq]
  simp [mergeSlashes_idem]

/-- C6: when the path segment contains no two consecutive slashes, both
merge functions are the identity: the header version leaves the headers
unmodified and the string version returns its input. -/
theorem claim_C6 (p : List Char)
    (h : hasDoubleSlash (pathSegmentOf p) = false) :
    PathUtil.mergeSlashes ⟨p⟩ = ⟨p⟩ ∧ PathTransformer.mergeSlashes p = p := by
  constructor
  · simp [PathUtil.mergeSlashes, h]
  · simp [PathTransformer.mergeSlashes, h]

theorem claim_C6_witness :
    hasDoubleSlash (pathSegmentOf ['/', 'a', '?', 'x']) = false ∧
    PathUtil.mergeSlashes ⟨['/', 'a', '?', 'x']⟩ = ⟨['/', 'a', '?', 'x']⟩ ∧
    PathTransformer.mergeSlashes ['/', 'a', '?', 'x'] = ['/', 'a', '?', 'x'] :=
  ⟨by decide, (claim_C6 ['/', 'a', '?', 'x'] (by decide)).1,
    (claim_C6 ['/', 'a', '?', 'x'] (by decide)).2⟩

/-- C7: the transformer built from a configured operation list holds
exactly one transformation per recognized operation in the configured
order (a filterMap over the operations, no reordering or deduplication),
skips unrecognized variants silently, and transform threads the
path-with-query string through the transformations in that order. -/
theorem claim_C7 :
    (∀ ops : List Operation,
      PathTransformer.transformations ops = ops.filterMap recognizedTransformation) ∧
    (∀ (ops1 ops2 : List Operation) (s : List Char),
      PathTransformer.transform (ops1 ++ ops2) s =
        (PathTransformer.transform ops1 s).bind (PathTransformer.transform ops2)) ∧
    (∀ (ops : List Operation) (s : List Char),
      PathTransformer.transform (Operation.unrecognized :: ops) s =
        PathTransformer.transform ops s) ∧
    PathTransformer.transform [Operation.mergeSlashes, Operation.normalizePathRfc3986]
      ['/', '/', 'a', '/', '.', '.', '/', 'b', '?', 'x', '=', '1'] =
      some ['/', 'b', '?', 'x', '=', '1'] := by
  refine ⟨transformations_filterMap, transform_append, ?_, by decide⟩
  intro ops s
  rfl

/-- C8: removeQueryAndFragment returns the substring of the input up to but
not including the first occurrence of a question mark or hash, whichever
occurs first, and the whole input when neither appears; concretely on the
two stated examples. -/
theorem claim_C8 :
    (∀ p : List Char, PathUtil.removeQueryAndFragment p =
      p.takeWhile (fun c => c ≠ '?' ∧ c ≠ '#')) ∧
    PathUtil.removeQueryAndFragment
      ['/', 'a', '/', 'b', '?', 'x', '=', '1', '#', 'f', 'r', 'a', 'g'] =
      ['/', 'a', '/', 'b'] ∧
    PathUtil.removeQueryAndFragment ['/', 'a', '/', 'b'] = ['/', 'a', '/', 'b'] := by
  exact ⟨removeQueryAndFragment_eq, by decide, by decide⟩

/-- C9: canonicalization is idempotent on every path on which it succeeds:
canonicalizing the canonical result succeeds and returns it unchanged. -/
theorem claim_C9 (p c : List Char) (h : canonicalizePath p = some c) :
    canonicalizePath c = some c :=
  canonicalizePath_idem p c h

theorem claim_C9_witness :
    canonicalizePath ['/', 'a', '/', '.', '/', 'b', '/', '.', '.', '/', 'c'] =
      some ['/', 'a', '/', 'c'] ∧
    canonicalizePath ['/', 'a', '/', 'c'] = some ['/', 'a', '/', 'c'] :=
  ⟨by decide, claim_C9 ['/', 'a', '/', '.', '/', 'b', '/', '.', '.', '/', 'c']
    ['/', 'a', '/', 'c'] (by decide)⟩

/-- C10: whenever canonicalPath returns false, the header path is
byte-identical to its value before the call: the failure path performs no
mutation. -/
theorem claim_C10 (headers : RequestHeaderMap)
    (h : (PathUtil.canonicalPath headers).1 = false) :
    (PathUtil.canonicalPath headers).2 = headers := by
  cases hc : canonicalizePath (pathSegmentOf headers.path) with
  | none => simp [PathUtil.canonicalPath, hc]
  | some c =>
    exfalso
    simp [PathUtil.canonicalPath, hc] at h

theorem claim_C10_witness :
    (PathUtil.canonicalPath ⟨['%']⟩).1 = false ∧
    (PathUtil.canonicalPath ⟨['%']⟩).2 = ⟨['%']⟩ :=
  ⟨by decide, claim_C10 ⟨['%']⟩ (by decide)⟩
